import Mathlib

/-!
Verification of the IPA (Interpret-Pick-Approximate) pipeline and its experiment
runner, shallowly embedded from the repository sources:

* `src/ida/ida.py` — fold planning (`class_counts`, `filter_for_split`,
  `determine_k_folds`, `run_cv`), the image corpus (`ImageList.__getitem__`) and
  the concept-influence selector (`InterpretPickTransformer`).
* `src/ida/experiments/experiment.py` — the repetition/resume stream consumption
  of `Experiment.run`, probability re-expansion
  (`Experiment._spread_probs_to_all_classes`, `Experiment._get_predictions`), the
  parameter fingerprint (`_freeze`, `KEY_PARAMS`) and experiment numbering
  (`run_experiments`).

Python machine floats are modelled by exact rationals (`ℚ`); the float values
flowing through `_spread_probs_to_all_classes` are only moved, never combined,
so that function is embedded generically over any type with a zero element.
Machine ints are unbounded in CPython, hence `Int`/`Nat` are exact models.
-/

namespace Ida

/-! ## Fold planning (`src/ida/ida.py`, lines 24-45 and 93-123) -/

/-- Comparator for the `sorted(..., key=lambda x: (1.0 / (x[1] + 1), x[0]))` call in
`class_counts`: counts are nonnegative there, so `1.0 / (c + 1)` orders counts
descendingly, with ties broken by ascending class id. -/
def classCountLe (a b : Int × Int) : Bool :=
  if b.2 < a.2 then true
  else if a.2 = b.2 then decide (a.1 ≤ b.1)
  else false

/-- Embeds `class_counts(predicted_classes, all_classes)`: a `Counter` over the
concatenation of the predicted classes and (when given) the full class list,
with `m = 1` subtracted from every count when `all_classes` is not `None`,
sorted by descending count and ascending class id.  `Counter` keys are iterated
in first-insertion order, which `List.dedup` reproduces. -/
def class_counts (predicted_classes : List Int) (all_classes : Option (List Int)) :
    List (Int × Int) :=
  let chained := predicted_classes ++ all_classes.getD []
  let m : Int := match all_classes with | none => 0 | some _ => 1
  let pairs := chained.dedup.map (fun s => (s, (chained.count s : Int) - m))
  pairs.insertionSort (fun a b => classCountLe a b = true)

/-- Embeds `filter_for_split`: the boolean inclusion mask
`np.isin(predicted_classes, enough_samples)` where `enough_samples` collects the
class ids whose (adjusted) count is at least `min_k_folds`. -/
def filter_for_split (predicted_classes : List Int) (min_k_folds : Nat)
    (all_classes : Option (List Int)) : List Bool :=
  let enough_samples :=
    ((class_counts predicted_classes all_classes).filter
      (fun sc => (min_k_folds : Int) ≤ sc.2)).map Prod.fst
  predicted_classes.map (fun p => enough_samples.contains p)

/-- Count of the least-represented class of a list of predicted labels:
`Counter(predicted_classes).most_common()[-1][1]`.  `most_common` sorts by
descending count, so the last entry carries the minimal count; the Python code
only evaluates this on nonempty input, where `min?` is `some`. -/
def leastClassCount (predicted_classes : List Int) : Nat :=
  ((predicted_classes.dedup.map (fun v => predicted_classes.count v)).min?).getD 0

/-- Embeds `determine_k_folds`. -/
def determine_k_folds (predicted_classes : List Int) (max_k_folds : Nat) : Nat :=
  min max_k_folds (leastClassCount predicted_classes)

/-- Cross-validation strategy chosen by `run_cv`: `KFold(n_splits=...)` or
`StratifiedKFold(n_splits=...)`. -/
inductive CVStrategy where
  | kfold (n_splits : Nat)
  | stratifiedKFold (n_splits : Nat)
deriving DecidableEq, Repr

/-- The fold plan a `run_cv` invocation fits with: the inclusion mask it applies
to `images` and `predicted_classes`, and the fold strategy handed to
`GridSearchCV`. -/
structure CVPlan where
  indices : List Bool
  cv : CVStrategy
deriving DecidableEq, Repr

/-- Boolean-mask selection `xs[mask]` for equal-length `mask`. -/
def applyMask {α : Type} (xs : List α) (mask : List Bool) : List α :=
  ((xs.zip mask).filter (fun pb => pb.2)).map Prod.fst

/-- Embeds the fold-planning prefix of `run_cv` (`src/ida/ida.py` lines 103-123):
the `assert min_k_folds <= max_k_folds`, the empty-mask fallback
(`indices = np.ones_like(indices); cv = KFold(n_splits=min_k_folds)`) and the
stratified branch.  The subsequent `GridSearchCV.fit` call on
`images[indices], predicted_classes[indices]` is external (scikit-learn) and out
of scope; `run_cv` itself contains no other exit path. -/
def run_cv_plan (predicted_classes : List Int) (all_classes : Option (List Int))
    (min_k_folds max_k_folds : Nat) : Except String CVPlan :=
  if min_k_folds ≤ max_k_folds then
    let indices := filter_for_split predicted_classes min_k_folds all_classes
    if indices.any id then
      .ok ⟨indices,
           .stratifiedKFold
             (determine_k_folds (applyMask predicted_classes indices) max_k_folds)⟩
    else
      .ok ⟨List.replicate predicted_classes.length true, .kfold min_k_folds⟩
  else
    .error "AssertionError: min_k_folds <= max_k_folds"

/-! ## The image corpus (`ImageList`, `src/ida/ida.py` lines 48-67) -/

/-- Python values used to index an `ImageList`.  An image is abstracted to an
opaque handle (`Nat`): `__getitem__` never inspects pixel data. -/
inductive PyIndex where
  | int (i : Int)
  | indexSeq (l : List Int)
  | boolMask (l : List Bool)
  | slice (start stop : Option Int)
deriving DecidableEq, Repr

/-- Exceptions that can escape `ImageList.__getitem__`. -/
inductive PyErr where
  | valueError (msg : String)
  | indexError
deriving DecidableEq, Repr

/-- The corpus: parallel arrays of image ids and images. -/
structure ImageList where
  image_ids : List String
  images : List Nat
deriving DecidableEq, Repr

/-- Result of `isinstance(idx, Iterable)`: true for lists of indices and boolean
masks; Python `slice` objects define no `__iter__` and are not iterable, and
integers are not iterable. -/
def PyIndex.isIterable : PyIndex → Bool
  | .indexSeq _ => true
  | .boolMask _ => true
  | _ => false

/-- Result of `np.issubdtype(type(idx), np.integer)`: true exactly for integer
indices. -/
def PyIndex.isIntegerKind : PyIndex → Bool
  | .int _ => true
  | _ => false

/-- Integer indexing of a numpy array, including negative indices; out-of-range
access raises `IndexError`. -/
def npGetInt {α : Type} (xs : List α) (i : Int) : Except PyErr α :=
  let n : Int := xs.length
  if h : 0 ≤ i ∧ i < n then
    .ok (xs.get ⟨i.toNat, by omega⟩)
  else if h2 : -n ≤ i ∧ i < 0 then
    .ok (xs.get ⟨(i + n).toNat, by omega⟩)
  else
    .error .indexError

/-- Fancy indexing `xs[idx]` by a list of integer indices. -/
def npFancy {α : Type} (xs : List α) (idx : List Int) : Except PyErr (List α) :=
  idx.mapM (npGetInt xs)

/-- Boolean-mask indexing `xs[mask]`; numpy raises `IndexError` when the mask
length does not match the axis length. -/
def npBoolSel {α : Type} (xs : List α) (mask : List Bool) : Except PyErr (List α) :=
  if mask.length = xs.length then .ok (applyMask xs mask) else .error .indexError

/-- Embeds `ImageList.__getitem__`: iterables of indices or booleans produce a
sub-corpus, integers produce a single `(id, image)` pair, and anything else —
in particular a `slice` — falls through to `raise ValueError(...)`. -/
def ImageList.getitem (xs : ImageList) (idx : PyIndex) :
    Except PyErr (Sum (String × Nat) ImageList) :=
  match idx with
  | .indexSeq l => do
      let ids ← npFancy xs.image_ids l
      let imgs ← npFancy xs.images l
      return .inr ⟨ids, imgs⟩
  | .boolMask m => do
      let ids ← npBoolSel xs.image_ids m
      let imgs ← npBoolSel xs.images m
      return .inr ⟨ids, imgs⟩
  | .int i => do
      let pid ← npGetInt xs.image_ids i
      let pimg ← npGetInt xs.images i
      return .inl (pid, pimg)
  | .slice _ _ => .error (.valueError "Cannot use slice for indexing.")

/-! ## The concept-influence selector (`InterpretPickTransformer`,
`src/ida/ida.py` lines 126-206) -/

/-- The `Type2Explainer` collaborator as seen by the selector: a deterministic
per-image list of `(concept_id, influence_flag)` occurrences (the mask component
of the Python triple is discarded by `_get_single_counts`), over a fixed concept
universe `numConcepts = len(interpreter.concepts)`.  Images are identified by
their ids. -/
structure Type2Model where
  numConcepts : Nat
  explain : String → List (Nat × Bool)

/-- Modelled from the spec: `Interpreter.concept_ids_to_counts`
(`ida/interpret/common.py`, which is not among the sources) — the selector must
"accumulate total and influential occurrence counts per concept id", so this is
the histogram of a list of concept ids over the concept universe. -/
def concept_ids_to_counts (numConcepts : Nat) (ids : List Nat) : List Nat :=
  (List.range numConcepts).map (fun c => ids.count c)

/-- Embeds `InterpretPickTransformer._get_single_counts`: total occurrence
counts of all concepts of one image, and occurrence counts restricted to the
occurrences flagged influential. -/
def get_single_counts (m : Type2Model) (image_id : String) : List Nat × List Nat :=
  let pairs := m.explain image_id
  let concept_ids := pairs.map Prod.fst
  let influential_concept_ids := (pairs.filter (fun p => p.2)).map Prod.fst
  (concept_ids_to_counts m.numConcepts concept_ids,
   concept_ids_to_counts m.numConcepts influential_concept_ids)

/-- Embeds `InterpretPickTransformer._get_counts`: the per-image count vectors,
unzipped into the totals list and the influential-counts list. -/
def get_counts (m : Type2Model) (X : List String) : List (List Nat) × List (List Nat) :=
  ((X.map (get_single_counts m)).map Prod.fst,
   (X.map (get_single_counts m)).map Prod.snd)

/-- Columnwise sum `np.sum(np.asarray(counts), axis=0)` of per-image count
vectors over the concept universe. -/
def sumCounts (numConcepts : Nat) (countLists : List (List Nat)) : List Nat :=
  (List.range numConcepts).map (fun c => (countLists.map (fun l => l.getD c 0)).sum)

/-- Embeds the influence-ratio computation of
`InterpretPickTransformer._evaluate_counters`: for each concept id the ratio
`influential_count / total_count`, or `0.` when the total count is `0.`. -/
def evaluate_counters (numConcepts : Nat)
    (counts influential_counts : List (List Nat)) : List ℚ :=
  let totals := sumCounts numConcepts counts
  let influentials := sumCounts numConcepts influential_counts
  (List.range numConcepts).map (fun cid =>
    if totals.getD cid 0 = 0 then 0
    else (influentials.getD cid 0 : ℚ) / (totals.getD cid 0 : ℚ))

/-- Embeds `np.quantile(xs, q)` with the default linear interpolation, over
exact rationals: with `s` the sorted data and `h = q * (n - 1)`, the result is
`s[⌊h⌋] + (h - ⌊h⌋) * (s[⌊h⌋ + 1] - s[⌊h⌋])`. -/
def npQuantile (xs : List ℚ) (q : ℚ) : ℚ :=
  let s := xs.insertionSort (· ≤ ·)
  let h : ℚ := q * ((s.length : ℚ) - 1)
  let i : Nat := (Int.floor h).toNat
  let g : ℚ := h - (i : ℚ)
  s.getD i 0 + g * (s.getD (i + 1) (s.getD i 0) - s.getD i 0)

/-- Embeds `InterpretPickTransformer.get_influential_concepts`: in quantile mode
with all influence ratios identical (`len(np.unique(...)) == 1`) every concept
id is returned; otherwise the threshold is the configured scalar (fixed mode) or
the empirical quantile of the ratios (quantile mode), and the returned ids are
those whose ratio strictly exceeds it. -/
def get_influential_concepts (quantile : Bool) (threshold : ℚ)
    (concept_influences : List ℚ) : List Nat :=
  if quantile ∧ concept_influences.dedup.length = 1 then
    List.range concept_influences.length
  else
    let t := if quantile then npQuantile concept_influences threshold else threshold
    (List.range concept_influences.length).filter
      (fun idx => decide (t < concept_influences.getD idx 0))

/-- Fitted state of the selector (`concept_influences_` and
`picked_concepts_`). -/
structure FitState where
  concept_influences : List ℚ
  picked_concepts : List Nat
deriving DecidableEq, Repr

/-- Embeds `InterpretPickTransformer.fit`: compute the per-image counts, run
`_evaluate_counters`, store ratios and picked concepts. -/
def fit (m : Type2Model) (quantile : Bool) (threshold : ℚ) (X : List String) :
    FitState :=
  let counts := get_counts m X
  let ci := evaluate_counters m.numConcepts counts.1 counts.2
  ⟨ci, get_influential_concepts quantile threshold ci⟩

/-- Column selection `np.asarray(counts)[:, picked]`. -/
def selectColumns (countRows : List (List Nat)) (picked : List Nat) :
    List (List Nat) :=
  countRows.map (fun row => picked.map (fun c => row.getD c 0))

/-- Embeds `InterpretPickTransformer.transform`: recompute the per-image total
counts and keep the columns of the picked concepts. -/
def transform (m : Type2Model) (st : FitState) (X : List String) :
    List (List Nat) :=
  selectColumns (get_counts m X).1 st.picked_concepts

/-- Embeds `InterpretPickTransformer.fit_transform`: compute the per-image
counts once, run `_evaluate_counters` on them, and reuse the very same counts
for the returned feature matrix. -/
def fit_transform (m : Type2Model) (quantile : Bool) (threshold : ℚ)
    (X : List String) : FitState × List (List Nat) :=
  let counts := get_counts m X
  let ci := evaluate_counters m.numConcepts counts.1 counts.2
  let st : FitState := ⟨ci, get_influential_concepts quantile threshold ci⟩
  (st, selectColumns counts.1 st.picked_concepts)

/-! ## Probability re-expansion (`Experiment._spread_probs_to_all_classes` and
`Experiment._get_predictions`, `src/ida/experiments/experiment.py` lines
200-221).  Probability entries are only zero-initialised and copied, never
combined, so the embedding is generic over any type with a zero. -/

/-- Comparator driving `np.argsort(self.class_names)`: string order on the
names, ties broken by index (ties cannot arise below, where the names are
assumed pairwise distinct, so the tie-break is immaterial). -/
def argsortLe (names : List String) (i j : Nat) : Bool :=
  if names.getD i "" < names.getD j "" then true
  else if names.getD i "" = names.getD j "" then decide (i ≤ j)
  else false

/-- Embeds `sorter = np.argsort(self.class_names)`: the permutation of
`range(len(names))` ordered by the corresponding names. -/
def argsortStr (names : List String) : List Nat :=
  (List.range names.length).insertionSort (fun i j => argsortLe names i j = true)

/-- Binary search of `np.searchsorted(..., side='left')`: the exact bisection
loop, evaluated through an access function `get` (the array as permuted by the
`sorter` argument).  On data that is not actually sorted the loop still
terminates and returns whatever the bisection steps produce, as numpy does. -/
def bisectLeftAux (get : Nat → Int) (v : Int) : Nat → Nat → Nat → Nat
  | 0, lo, _ => lo
  | fuel + 1, lo, hi =>
    if lo < hi then
      if get ((lo + hi) / 2) < v then
        bisectLeftAux get v fuel ((lo + hi) / 2 + 1) hi
      else
        bisectLeftAux get v fuel lo ((lo + hi) / 2)
    else lo

/-- The bisection loop runs on `[lo, hi)`; the interval shrinks by at least one
element per step, so `hi - lo` steps of fuel make the recursion structural. -/
def bisectLeft (get : Nat → Int) (v : Int) (lo hi : Nat) : Nat :=
  bisectLeftAux get v (hi - lo) lo hi

/-- Embeds `np.searchsorted(a, v, sorter=sorter)` for a single value `v`. -/
def searchsorted (a : List Int) (sorter : List Nat) (v : Int) : Nat :=
  bisectLeft (fun i => a.getD (sorter.getD i 0) 0) v 0 sorter.length

/-- Fancy-index assignment `out[:, idx] = probs` for one row: write `row[t]`
into column `idx[t]`, later writes winning on duplicate columns. -/
def assignCols {α : Type} (base : List α) (idx : List Nat) (row : List α) :
    List α :=
  (idx.zip row).foldl (fun acc jv => acc.set jv.1 jv.2) base

/-- Embeds `Experiment._spread_probs_to_all_classes(probs, classes_)`:
`proba_ordered = np.zeros((rows, len(class_names)))`;
`sorter = np.argsort(class_names)`;
`idx = sorter[np.searchsorted(all_class_ids, classes_, sorter=sorter)]` with
`all_class_ids = list(range(num_classes))` and
`len(class_names) == num_classes`; finally `proba_ordered[:, idx] = probs`. -/
def spread_probs_to_all_classes {α : Type} [Zero α] (class_names : List String)
    (classes_ : List Int) (probs : List (List α)) : List (List α) :=
  let n := class_names.length
  let all_class_ids : List Int := (List.range n).map Int.ofNat
  let sorter := argsortStr class_names
  let idx := classes_.map (fun c => sorter.getD (searchsorted all_class_ids sorter c) 0)
  probs.map (fun row => assignCols (List.replicate n (0 : α)) idx row)

/-- Embeds `Experiment._get_predictions` after `predict_proba`: re-expand, then
collapse to the positive-class column when the re-expanded matrix has exactly
two columns (`pred.shape[1] == 2`, the binary case). -/
def get_predictions {α : Type} [Zero α] (class_names : List String)
    (classes_ : List Int) (probs : List (List α)) :
    Sum (List (List α)) (List α) :=
  let pred := spread_probs_to_all_classes class_names classes_ probs
  if class_names.length = 2 then .inr (pred.map (fun row => row.getD 1 0))
  else .inl pred

/-- Statement of the spec sentence for C3, written from the spec words (not from
the code): the re-expanded row has, at each class id `j` of the universe, the
probability the surrogate predicted for class `j` if the surrogate has seen `j`
(that is, `j` occurs in `classes_`, at position `t`, and the row value is
`row[t]`), and `0` for every class the surrogate has not seen. -/
def specSpreadRow {α : Type} [Zero α] (n : Nat) (classes_ : List Int)
    (row : List α) : List α :=
  (List.range n).map (fun (j : Nat) =>
    match classes_.indexOf? (j : Int) with
    | some t => row.getD t 0
    | none => 0)

/-! ## Experiment configuration, stream consumption on resume
(`Experiment.run`, `src/ida/experiments/experiment.py` lines 133-198) and the
parameter fingerprint (`_freeze` / `run_experiments`, lines 266-347). -/

/-- Configuration fields of the `Experiment` dataclass that feed `run` and
`params`.  The collaborator objects (`type1`, `type2`, the interpreter, the
classifier, the model-agnostic picker) enter `params` only through their string
descriptions, which are modelled directly; the two interpreter thresholds
(`max_perturbed_area`, `max_concept_overlap`) are numeric configuration
constants only ever compared for equality, modelled as `Int`. -/
structure Experiment where
  random_state : Int
  repetitions : Nat
  images_url : String
  num_train_obs : Nat
  num_calibration_obs : Nat
  num_test_obs : Nat
  class_names : List String
  classifier_name : String
  interpreter_desc : String
  concept_names : List String
  type1_desc : String
  type2_desc : String
  model_agnostic_picker_desc : String
  max_perturbed_area : Int
  max_concept_overlap : Int
deriving DecidableEq, Repr

/-- Embeds `skip_count = self.num_test_obs + (resume_at - 1) * self.num_train_obs`
from `Experiment.run` (line 153). -/
def skip_count (e : Experiment) (resume_at : Nat) : Nat :=
  e.num_test_obs + (resume_at - 1) * e.num_train_obs

/-- One loop turn of `Experiment.run` per remaining repetition: the shared
forward-only iterator stands at stream position `pos`; the repetition first
consumes `num_calibration_obs` items for `type2.calibrate`, then the
`num_train_obs`-sized training chunk, and the cursor advances past both.
Returns `(rep_no, training chunk)` pairs, a chunk being the list of consumed
stream positions. -/
def repChunksAux (calib train : Nat) : Nat → Nat → Nat → List (Nat × List Nat)
  | 0, _, _ => []
  | remaining + 1, rep_no, pos =>
    (rep_no, List.range' (pos + calib) train) ::
      repChunksAux calib train remaining (rep_no + 1) (pos + calib + train)

/-- Embeds the stream consumption of `Experiment.run(resume_at)`: the iterator
is opened with `skip=skip_count`, then `for rep_no in range(resume_at,
repetitions + 1)` each repetition slices off calibration data and its training
chunk. -/
def runTrainChunks (e : Experiment) (resume_at : Nat) : List (Nat × List Nat) :=
  repChunksAux e.num_calibration_obs e.num_train_obs
    (e.repetitions + 1 - resume_at) resume_at (skip_count e resume_at)

/-- Concrete configuration exhibiting the resume-skip divergence of C1. -/
def c1Experiment : Experiment :=
  { random_state := 0, repetitions := 2, images_url := "u",
    num_train_obs := 2, num_calibration_obs := 1, num_test_obs := 1,
    class_names := ["a", "b"], classifier_name := "clf",
    interpreter_desc := "interp", concept_names := ["c"],
    type1_desc := "t1", type2_desc := "t2",
    model_agnostic_picker_desc := "passthrough",
    max_perturbed_area := 1, max_concept_overlap := 1 }

/-- Concrete explainer model for C4: two concepts, every image yields a single
influential occurrence of concept 1 and no occurrence of concept 0. -/
def c4model : Type2Model := ⟨2, fun _ => [(1, true)]⟩

/-- Concrete explainer model for C8: two concepts, every image yields one
influential occurrence of each, so both influence ratios are 1. -/
def c8model : Type2Model := ⟨2, fun _ => [(0, true), (1, true)]⟩

/-- Values stored in an experiment parameter mapping: strings, numbers, lists
and (after freezing) tuples. -/
inductive PVal where
  | s (v : String)
  | n (v : Int)
  | list (vs : List String)
  | tuple (vs : List String)
deriving DecidableEq, Repr

/-- Embeds the non-dict cases of `_freeze` on a parameter value: a list becomes
a tuple (its elements, strings here, are not themselves recursed into by the
Python code), anything else is returned unchanged.  The dict case of `_freeze`
is the top-level fingerprint construction, `fingerprint` below. -/
def freezeVal : PVal → PVal
  | .list vs => .tuple vs
  | v => v

/-- Embeds `KEY_PARAMS` (`src/ida/experiments/experiment.py` lines 266-275). -/
def KEY_PARAMS : List String :=
  ["classifier", "images_url", "num_train_obs", "num_calibration_obs",
   "interpreter", "type2", "type1", "model_agnostic_picker",
   "max_perturbed_area", "min_overlap_for_concept_merge"]

/-- Embeds the `model_agnostic_picker` default of `_freeze`: mappings lacking
the field (older result rows) are treated as having picker `'passthrough'`. -/
def withPickerDefault (d : List (String × PVal)) : List (String × PVal) :=
  if d.any (fun kv => kv.1 = "model_agnostic_picker") then d
  else d ++ [("model_agnostic_picker", .s "passthrough")]

/-- Embeds the dict case of `_freeze`: the frozenset of `(key, _freeze(value))`
pairs over the keys in `KEY_PARAMS`.  A Python `frozenset` compares by set
equality, which `Finset` reproduces. -/
def fingerprint (d : List (String × PVal)) : Finset (String × PVal) :=
  (((withPickerDefault d).filter (fun kv => kv.1 ∈ KEY_PARAMS)).map
    (fun kv => (kv.1, freezeVal kv.2))).toFinset

/-- Embeds the `Experiment.params` property (lines 110-123). -/
def Experiment.params (e : Experiment) : List (String × PVal) :=
  [("classifier", .s e.classifier_name),
   ("class_names", .list e.class_names),
   ("images_url", .s e.images_url),
   ("num_train_obs", .n e.num_train_obs),
   ("num_calibration_obs", .n e.num_calibration_obs),
   ("interpreter", .s e.interpreter_desc),
   ("concept_names", .list e.concept_names),
   ("type2", .s e.type2_desc),
   ("type1", .s e.type1_desc),
   ("model_agnostic_picker", .s e.model_agnostic_picker_desc),
   ("num_test_obs", .n e.num_test_obs),
   ("max_perturbed_area", .n e.max_perturbed_area),
   ("min_overlap_for_concept_merge", .n e.max_concept_overlap)]

/-- The key-parameter projection of an `Experiment`: the values its fingerprint
is built from, in `KEY_PARAMS` order. -/
structure KeyParams where
  classifier : String
  images_url : String
  num_train_obs : Nat
  num_calibration_obs : Nat
  interpreter : String
  type2 : String
  type1 : String
  model_agnostic_picker : String
  max_perturbed_area : Int
  min_overlap_for_concept_merge : Int
deriving DecidableEq, Repr

/-- Key-parameter projection of an experiment configuration. -/
def keyParams (e : Experiment) : KeyParams :=
  ⟨e.classifier_name, e.images_url, e.num_train_obs, e.num_calibration_obs,
   e.interpreter_desc, e.type2_desc, e.type1_desc, e.model_agnostic_picker_desc,
   e.max_perturbed_area, e.max_concept_overlap⟩

/-- Lookup in a Python dict modelled as an association list (later insertions
are consed to the front). -/
def dictLookup {κ ν : Type} [DecidableEq κ] : List (κ × ν) → κ → Option ν
  | [], _ => none
  | kv :: rest, k => if kv.1 = k then some kv.2 else dictLookup rest k

/-- State of `run_experiments`: the `exp_no_by_params` dict mapping fingerprints
to experiment numbers, and the `next_exp_no` counter. -/
structure LedgerState where
  exp_no_by_params : List (Finset (String × PVal) × Nat)
  next_exp_no : Nat

/-- Invariant run_experiments maintains on its state: the fingerprint table is
injective (one fingerprint per number) and all assigned numbers lie below
`next_exp_no`.  The empty initial state (`next_exp_no = 1`) satisfies it, and
the ledger-loading loop of a resumed run re-establishes it (its `assert`
enforces one number per fingerprint). -/
def LedgerInv (st : LedgerState) : Prop :=
  (∀ k1 k2 n, dictLookup st.exp_no_by_params k1 = some n →
    dictLookup st.exp_no_by_params k2 = some n → k1 = k2) ∧
  (∀ k n, dictLookup st.exp_no_by_params k = some n → n < st.next_exp_no)

/-- Embeds one ledger row of the resume-loading loop of `run_experiments`
(lines 306-314): a known fingerprint must carry the recorded number
(`assert exp_no_by_params[params] == e['exp_no']`), a new fingerprint is
registered and `next_exp_no` is bumped past its number. -/
def loadLedgerRow (st : LedgerState) (row : Finset (String × PVal) × Nat) :
    Except String LedgerState :=
  match dictLookup st.exp_no_by_params row.1 with
  | some n =>
    if n = row.2 then .ok st
    else .error "AssertionError: each parameter set must be identified by exactly one experiment number"
  | none =>
    .ok ⟨(row.1, row.2) :: st.exp_no_by_params, max (row.2 + 1) st.next_exp_no⟩

/-- Embeds the experiment-number assignment of the main loop of
`run_experiments` (lines 334-345): for each configuration in order, reuse the
number recorded for its fingerprint, or hand out `next_exp_no` and register it.
Returns the assigned numbers in order together with the final state.  (The
`done_counter` guard only decides whether repetitions are executed; a
configuration it skips already has its number in the table from ledger
loading.) -/
def assignNumbers (st : LedgerState) :
    List (Finset (String × PVal)) → List Nat × LedgerState
  | [] => ([], st)
  | fp :: rest =>
    match dictLookup st.exp_no_by_params fp with
    | some n =>
      let r := assignNumbers st rest
      (n :: r.1, r.2)
    | none =>
      let st1 : LedgerState :=
        ⟨(fp, st.next_exp_no) :: st.exp_no_by_params, st.next_exp_no + 1⟩
      let r := assignNumbers st1 rest
      (st.next_exp_no :: r.1, r.2)

/-- Concrete configuration for the C9 witness. -/
def c9exp1 : Experiment :=
  { random_state := 42, repetitions := 3, images_url := "petastorm://train",
    num_train_obs := 100, num_calibration_obs := 10, num_test_obs := 50,
    class_names := ["cat", "dog"], classifier_name := "resnet",
    interpreter_desc := "objects", concept_names := ["ear", "tail"],
    type1_desc := "tree", type2_desc := "grad",
    model_agnostic_picker_desc := "passthrough",
    max_perturbed_area := 3, max_concept_overlap := 4 }

/-- Same configuration as `c9exp1` except for `num_test_obs`, which is not a
key parameter. -/
def c9exp2 : Experiment := { c9exp1 with num_test_obs := 999 }

/-! ## Helper lemmas -/

/-- Shared helper: when the inclusion mask is empty, `run_cv` substitutes an
all-inclusive mask and an unstratified `KFold(min_k_folds)` and proceeds. -/
lemma run_cv_plan_fallback (pred : List Int) (allc : Option (List Int))
    (mn mx : Nat) (hmm : mn ≤ mx)
    (h : (filter_for_split pred mn allc).any id = false) :
    run_cv_plan pred allc mn mx =
      .ok ⟨List.replicate pred.length true, .kfold mn⟩ := by
  unfold run_cv_plan
  simp only [if_pos hmm, h, Bool.false_eq_true, if_false]

/-- Shape of `npGetInt`: success or `IndexError`. -/
lemma npGetInt_shape {α : Type} (xs : List α) (i : Int) :
    (∃ a, npGetInt xs i = .ok a) ∨ npGetInt xs i = .error .indexError := by
  by_cases h : 0 ≤ i ∧ i < (xs.length : Int)
  · exact .inl ⟨_, by simp only [npGetInt]; rw [dif_pos h]⟩
  · by_cases h2 : -(xs.length : Int) ≤ i ∧ i < 0
    · exact .inl ⟨_, by simp only [npGetInt]; rw [dif_neg h, dif_pos h2]⟩
    · exact .inr (by simp only [npGetInt]; rw [dif_neg h, dif_neg h2])

/-- Shape of `npFancy`: success or `IndexError`. -/
lemma npFancy_shape {α : Type} (xs : List α) (idx : List Int) :
    (∃ l, npFancy xs idx = .ok l) ∨ npFancy xs idx = .error .indexError := by
  induction idx with
  | nil => exact .inl ⟨[], rfl⟩
  | cons a l ih =>
    unfold npFancy at ih ⊢
    rw [List.mapM_cons]
    rcases npGetInt_shape xs a with ⟨b, hb⟩ | hb
    · rcases ih with ⟨l', hl⟩ | hl
      · exact .inl ⟨b :: l', by rw [hb, hl]; rfl⟩
      · exact .inr (by rw [hb, hl]; rfl)
    · exact .inr (by rw [hb]; rfl)

/-- Shape of `npBoolSel`: success or `IndexError`. -/
lemma npBoolSel_shape {α : Type} (xs : List α) (mask : List Bool) :
    (∃ l, npBoolSel xs mask = .ok l) ∨ npBoolSel xs mask = .error .indexError := by
  unfold npBoolSel
  split
  · exact .inl ⟨_, rfl⟩
  · exact .inr rfl

/-- Entry `cid` of the influence-ratio vector. -/
lemma evaluate_counters_getD (n : Nat) (cs is : List (List Nat)) (cid : Nat)
    (h : cid < n) :
    (evaluate_counters n cs is).getD cid 0 =
      if (sumCounts n cs).getD cid 0 = 0 then 0
      else ((sumCounts n is).getD cid 0 : ℚ) / ((sumCounts n cs).getD cid 0 : ℚ) := by
  unfold evaluate_counters
  rw [List.getD_eq_getElem?_getD, List.getElem?_map, List.getElem?_range h]
  rfl

/-- The influence-ratio vector ranges over the whole concept universe. -/
lemma evaluate_counters_length (n : Nat) (cs is : List (List Nat)) :
    (evaluate_counters n cs is).length = n := by
  simp [evaluate_counters]

/-- Fixed-mode membership in the picked-concept set: the ratio must strictly
exceed the configured threshold. -/
lemma mem_get_influential_fixed (threshold : ℚ) (ci : List ℚ) (cid : Nat) :
    cid ∈ get_influential_concepts false threshold ci ↔
      cid < ci.length ∧ threshold < ci.getD cid 0 := by
  unfold get_influential_concepts
  simp [List.mem_filter, List.mem_range]

/-- A nonempty list whose elements all equal its head dedups to a singleton. -/
lemma dedup_length_one_of_all_eq {l : List ℚ} (hne : l ≠ [])
    (hall : ∀ x ∈ l, x = l.getD 0 0) : l.dedup.length = 1 := by
  have hmem : ∀ x ∈ l.dedup, x = l.getD 0 0 :=
    fun x hx => hall x (List.mem_dedup.mp hx)
  have hnd : l.dedup.Nodup := l.nodup_dedup
  cases hd : l.dedup with
  | nil => exact absurd ((List.dedup_eq_nil l).mp hd) hne
  | cons x t =>
    cases ht : t with
    | nil => rfl
    | cons y t2 =>
      have hx : x = l.getD 0 0 := hmem x (by rw [hd]; exact List.mem_cons_self x t)
      have hy : y = l.getD 0 0 := hmem y
        (by rw [hd, ht]; exact List.mem_cons_of_mem _ (List.mem_cons_self y t2))
      rw [hd, ht] at hnd
      have hne2 := (List.nodup_cons.mp hnd).1
      exact absurd (hx.trans hy.symm)
        (fun hxy => hne2 (hxy ▸ List.mem_cons_self y t2))

/-- Boolean membership test of `np.isin`, reduced to propositional
membership. -/
lemma contains_eq_decide_mem (l : List Int) (a : Int) :
    l.contains a = decide (a ∈ l) :=
  List.elem_eq_mem a l

/-- Membership in `class_counts`: exactly the pairs `(s, adjusted count of s)`
for class ids `s` occurring in the concatenation of the predicted classes and
the class universe. -/
lemma mem_class_counts {pred : List Int} {allc : Option (List Int)}
    {sc : Int × Int} :
    sc ∈ class_counts pred allc ↔
      sc.1 ∈ pred ++ allc.getD [] ∧
      sc.2 = ((pred ++ allc.getD []).count sc.1 : Int) -
        (match allc with | none => 0 | some _ => 1) := by
  unfold class_counts
  rw [(List.perm_insertionSort _ _).mem_iff]
  simp only [List.mem_map, List.mem_dedup]
  constructor
  · rintro ⟨s, hs, rfl⟩
    exact ⟨hs, rfl⟩
  · rintro ⟨h1, h2⟩
    exact ⟨sc.1, h1, Prod.ext rfl h2.symm⟩

/-- Membership in the `enough_samples` class list of `filter_for_split`. -/
lemma mem_enough_samples {pred : List Int} {allc : Option (List Int)}
    {mn : Nat} {p : Int} :
    p ∈ ((class_counts pred allc).filter
        (fun sc => (mn : Int) ≤ sc.2)).map Prod.fst ↔
      p ∈ pred ++ allc.getD [] ∧
        (mn : Int) ≤ ((pred ++ allc.getD []).count p : Int) -
          (match allc with | none => 0 | some _ => 1) := by
  have main : ∀ m : Int,
      (∀ q : Int × Int, q ∈ class_counts pred allc ↔
        q.1 ∈ pred ++ allc.getD [] ∧
        q.2 = ((pred ++ allc.getD []).count q.1 : Int) - m) →
      (p ∈ ((class_counts pred allc).filter
          (fun sc => (mn : Int) ≤ sc.2)).map Prod.fst ↔
        p ∈ pred ++ allc.getD [] ∧
          (mn : Int) ≤ ((pred ++ allc.getD []).count p : Int) - m) := by
    intro m hchar
    simp only [List.mem_map, List.mem_filter]
    constructor
    · rintro ⟨⟨a, c⟩, ⟨hmem, hc⟩, rfl⟩
      obtain ⟨hm1, hm2⟩ := (hchar (a, c)).mp hmem
      simp only [decide_eq_true_eq] at hc
      exact ⟨hm1, by simp only at hm1 hm2 ⊢; omega⟩
    · rintro ⟨h1, h2⟩
      exact ⟨(p, ((pred ++ allc.getD []).count p : Int) - m),
        ⟨(hchar _).mpr ⟨h1, rfl⟩, by simpa using h2⟩, rfl⟩
  rcases allc with _ | ac
  · exact main 0 (fun q => mem_class_counts)
  · exact main 1 (fun q => mem_class_counts)

/-- Under a duplicate-free class universe containing every predicted class,
the inclusion mask marks exactly the observations whose predicted class occurs
at least `min_k_folds` times. -/
lemma filter_for_split_char (pred ac : List Int) (mn : Nat)
    (hnd : ac.Nodup) (hsub : ∀ v ∈ pred, v ∈ ac) :
    filter_for_split pred mn (some ac) =
      pred.map (fun p => decide (mn ≤ pred.count p)) := by
  unfold filter_for_split
  apply List.map_congr_left
  intro p hp
  rw [contains_eq_decide_mem]
  apply decide_eq_decide.mpr
  rw [mem_enough_samples]
  have hac : ac.count p = 1 := List.count_eq_one_of_mem hnd (hsub p hp)
  simp only [Option.getD_some]
  rw [List.count_append]
  constructor
  · rintro ⟨_, h⟩
    rw [hac] at h
    push_cast at h
    omega
  · intro h
    refine ⟨List.mem_append_left _ hp, ?_⟩
    rw [hac]
    push_cast
    omega

/-- Selecting with the mask `xs.map f` is filtering by `f`. -/
lemma applyMask_map {α : Type} (xs : List α) (f : α → Bool) :
    applyMask xs (xs.map f) = xs.filter f := by
  induction xs with
  | nil => rfl
  | cons a l ih =>
    simp only [applyMask, List.zip, List.map_cons, List.zipWith_cons_cons,
      List.filter] at ih ⊢
    cases h : f a <;> simp [h, ih]

/-- With strictly increasing class names, `np.argsort(class_names)` is the
identity permutation. -/
lemma argsortStr_sorted_eq_range (names : List String)
    (h : names.Pairwise (· < ·)) :
    argsortStr names = List.range names.length := by
  unfold argsortStr
  apply List.Sorted.insertionSort_eq
  rw [List.Sorted, List.pairwise_iff_getElem]
  intro i j hi hj hij
  rw [List.length_range] at hi hj
  rw [List.getElem_range, List.getElem_range]
  have hlt : names.getD i "" < names.getD j "" := by
    have hget := List.pairwise_iff_getElem.mp h i j hi hj hij
    rw [List.getD_eq_getElem?_getD, List.getD_eq_getElem?_getD,
      List.getElem?_eq_getElem hi, List.getElem?_eq_getElem hj]
    exact hget
  unfold argsortLe
  rw [if_pos hlt]

/-- On an interval where `get` is the identity, left bisection finds its target
exactly. -/
lemma bisectLeftAux_id (get : Nat → Int) :
    ∀ (fuel lo hi c : Nat), lo ≤ c → c ≤ hi → hi - lo ≤ fuel →
      (∀ m2, lo ≤ m2 → m2 < hi → get m2 = (m2 : Int)) →
      bisectLeftAux get (c : Int) fuel lo hi = c := by
  intro fuel
  induction fuel with
  | zero =>
    intro lo hi c h1 h2 h3 _
    unfold bisectLeftAux
    omega
  | succ fuel ih =>
    intro lo hi c h1 h2 h3 hget
    unfold bisectLeftAux
    by_cases hlt : lo < hi
    · rw [if_pos hlt]
      have hm1 : lo ≤ (lo + hi) / 2 := by omega
      have hm2 : (lo + hi) / 2 < hi := by omega
      rw [hget _ hm1 hm2]
      by_cases hc : (((lo + hi) / 2 : Nat) : Int) < (c : Int)
      · rw [if_pos hc]
        exact ih _ hi c (by omega) h2 (by omega)
          (fun m2 hm hm2b => hget m2 (by omega) hm2b)
      · rw [if_neg hc]
        exact ih lo _ c h1 (by omega) (by omega)
          (fun m2 hm hm2b => hget m2 hm (by omega))
    · rw [if_neg hlt]
      omega

/-- Searching a class id in the identity-sorted id range finds its own
position. -/
lemma searchsorted_range_id (n c : Nat) (hc : c < n) :
    searchsorted ((List.range n).map Int.ofNat) (List.range n) (c : Int) = c := by
  unfold searchsorted bisectLeft
  rw [List.length_range]
  apply bisectLeftAux_id _ _ 0 n c (Nat.zero_le c) (le_of_lt hc) (by omega)
  intro m2 _ hm2
  rw [List.getD_eq_getElem?_getD (List.range n), List.getElem?_range hm2,
    Option.getD_some, List.getD_eq_getElem?_getD, List.getElem?_map,
    List.getElem?_range hm2]
  rfl

/-- A found index lies inside the list. -/
lemma indexOf?_lt_length {α : Type} [BEq α] {l : List α} {a : α} {t : Nat}
    (h : l.indexOf? a = some t) : t < l.length := by
  induction l generalizing t with
  | nil => simp at h
  | cons x xs ih =>
    rw [List.indexOf?_cons] at h
    by_cases hx : x == a
    · rw [if_pos hx] at h
      cases h
      simp
    · rw [if_neg hx] at h
      cases hro : xs.indexOf? a with
      | none => rw [hro] at h; simp at h
      | some t2 =>
        rw [hro] at h
        have ht : t = t2 + 1 := by
          have h2 : some (t2 + 1) = some t := h
          exact (Option.some.inj h2).symm
        have := ih hro
        simp only [List.length_cons]
        omega

/-- Position lookup commutes with mapping nonnegative class ids to `Nat`. -/
lemma indexOf?_map_toNat (classes_ : List Int) (j : Nat)
    (hnn : ∀ c ∈ classes_, 0 ≤ c) :
    (classes_.map Int.toNat).indexOf? j = classes_.indexOf? (j : Int) := by
  induction classes_ with
  | nil => rfl
  | cons c rest ih =>
    rw [List.map_cons, List.indexOf?_cons, List.indexOf?_cons]
    have h0 := hnn c (List.mem_cons_self c rest)
    have hc : (c.toNat == j) = (c == (j : Int)) := by
      apply Bool.eq_iff_iff.mpr
      simp only [beq_iff_eq]
      omega
    rw [hc, ih (fun x hx => hnn x (List.mem_cons_of_mem _ hx))]

/-- Entrywise description of the fancy-index assignment `out[:, idx] = probs`
for one row, for duplicate-free in-range column indices. -/
lemma assignCols_getElem? {α : Type} (idx : List Nat) (row : List α)
    (base : List α) (hnd : idx.Nodup) (hlen : idx.length = row.length)
    (hb : ∀ t ∈ idx, t < base.length) (j : Nat) :
    (assignCols base idx row)[j]? =
      match idx.indexOf? j with
      | some t => row[t]?
      | none => base[j]? := by
  induction idx generalizing row base with
  | nil => simp [assignCols]
  | cons t0 rest ih =>
    cases row with
    | nil => simp at hlen
    | cons r0 rrest =>
      have hstep : assignCols base (t0 :: rest) (r0 :: rrest) =
          assignCols (base.set t0 r0) rest rrest := rfl
      rw [hstep]
      have hnd2 := List.nodup_cons.mp hnd
      have hlen2 : rest.length = rrest.length := by simpa using hlen
      have hb2 : ∀ t ∈ rest, t < (base.set t0 r0).length := by
        intro t ht
        rw [List.length_set]
        exact hb t (List.mem_cons_of_mem _ ht)
      rw [ih rrest (base.set t0 r0) hnd2.2 hlen2 hb2]
      rw [List.indexOf?_cons]
      by_cases hj : t0 = j
      · subst hj
        rw [if_pos (by simp)]
        have hnone : rest.indexOf? t0 = none :=
          List.indexOf?_eq_none_iff.mpr
            (fun x hx => by
              simp only [beq_iff_eq]
              exact fun he => hnd2.1 (he ▸ hx))
        rw [hnone]
        simp [List.getElem?_set_self (hb t0 (List.mem_cons_self t0 rest))]
      · rw [if_neg (by simpa using hj)]
        cases hro : rest.indexOf? j with
        | some t => simp
        | none => simp [List.getElem?_set_ne hj]

/-- Entrywise description of the spec-side re-expanded row. -/
lemma specSpreadRow_getElem? {α : Type} [Zero α] (n : Nat) (classes_ : List Int)
    (row : List α) (j : Nat) :
    (specSpreadRow n classes_ row)[j]? =
      if j < n then
        some (match classes_.indexOf? (j : Int) with
          | some t => row.getD t 0
          | none => 0)
      else none := by
  unfold specSpreadRow
  by_cases hj : j < n
  · rw [List.getElem?_map, List.getElem?_range hj, if_pos hj]
    rfl
  · rw [List.getElem?_map, if_neg hj,
      List.getElem?_eq_none (by rw [List.length_range]; omega)]
    rfl

/-- Row-level form of the C3 re-expansion equality for sorted class names. -/
lemma spread_row_eq {α : Type} [Zero α] (class_names : List String)
    (classes_ : List Int) (row : List α)
    (hsorted : class_names.Pairwise (· < ·))
    (hcl : ∀ c ∈ classes_, 0 ≤ c ∧ c < (class_names.length : Int))
    (hnd : classes_.Nodup) (hrowlen : row.length = classes_.length) :
    assignCols (List.replicate class_names.length (0 : α))
      (classes_.map (fun c => (argsortStr class_names).getD
        (searchsorted ((List.range class_names.length).map Int.ofNat)
          (argsortStr class_names) c) 0)) row =
      specSpreadRow class_names.length classes_ row := by
  rw [argsortStr_sorted_eq_range class_names hsorted]
  have hidx : classes_.map (fun c => (List.range class_names.length).getD
      (searchsorted ((List.range class_names.length).map Int.ofNat)
        (List.range class_names.length) c) 0) = classes_.map Int.toNat := by
    apply List.map_congr_left
    intro c hc
    obtain ⟨h0, hlt⟩ := hcl c hc
    have hclt : c.toNat < class_names.length := by omega
    have hceq : c = (c.toNat : Int) := (Int.toNat_of_nonneg h0).symm
    rw [hceq, searchsorted_range_id _ _ hclt,
      List.getD_eq_getElem?_getD, List.getElem?_range hclt]
    rfl
  rw [hidx]
  apply List.ext_getElem?
  intro j
  have hndm : (classes_.map Int.toNat).Nodup := by
    apply List.Nodup.map_on _ hnd
    intro x hx y hy hxy
    have := (hcl x hx).1
    have := (hcl y hy).1
    omega
  have hlenm : (classes_.map Int.toNat).length = row.length := by
    rw [List.length_map, hrowlen]
  have hbm : ∀ t ∈ classes_.map Int.toNat,
      t < (List.replicate class_names.length (0 : α)).length := by
    intro t ht
    rw [List.length_replicate]
    obtain ⟨c, hc, rfl⟩ := List.mem_map.mp ht
    obtain ⟨h0, hlt⟩ := hcl c hc
    omega
  rw [assignCols_getElem? _ _ _ hndm hlenm hbm j,
    indexOf?_map_toNat classes_ j (fun c hc => (hcl c hc).1),
    specSpreadRow_getElem?]
  by_cases hj : j < class_names.length
  · rw [if_pos hj]
    cases hro : classes_.indexOf? (j : Int) with
    | some t =>
      have htlt : t < row.length := by
        rw [hrowlen]
        have := indexOf?_lt_length hro
        omega
      show row[t]? = some (row.getD t 0)
      rw [List.getElem?_eq_getElem htlt]
      simp only [List.getD_eq_getElem?_getD, List.getElem?_eq_getElem htlt,
        Option.getD_some]
    | none =>
      show (List.replicate class_names.length (0 : α))[j]? = some 0
      rw [List.getElem?_replicate, if_pos hj]
  · rw [if_neg hj]
    have hro : classes_.indexOf? (j : Int) = none := by
      apply List.indexOf?_eq_none_iff.mpr
      intro x hx
      simp only [beq_iff_eq]
      obtain ⟨h0, hlt⟩ := hcl x hx
      omega
    rw [hro]
    show (List.replicate class_names.length (0 : α))[j]? = none
    rw [List.getElem?_replicate, if_neg hj]

/-- The permutation `np.argsort(["b", "a"])` reverses the two indices. -/
lemma argsortStr_ba : argsortStr ["b", "a"] = [1, 0] := by
  have hr : List.range (["b", "a"].length) = [0, 1] := by decide
  rw [argsortStr, hr]
  simp [List.insertionSort, List.orderedInsert, argsortLe]
  decide

/-- The fingerprint of an experiment configuration, computed: the frozenset of
the ten `KEY_PARAMS` entries of `Experiment.params` (the non-key entries
`class_names`, `concept_names` and `num_test_obs` are filtered out). -/
lemma fingerprint_params (e : Experiment) :
    fingerprint e.params =
      ([("classifier", PVal.s e.classifier_name),
        ("images_url", PVal.s e.images_url),
        ("num_train_obs", PVal.n e.num_train_obs),
        ("num_calibration_obs", PVal.n e.num_calibration_obs),
        ("interpreter", PVal.s e.interpreter_desc),
        ("type2", PVal.s e.type2_desc),
        ("type1", PVal.s e.type1_desc),
        ("model_agnostic_picker", PVal.s e.model_agnostic_picker_desc),
        ("max_perturbed_area", PVal.n e.max_perturbed_area),
        ("min_overlap_for_concept_merge", PVal.n e.max_concept_overlap)]).toFinset :=
  rfl

/-- Two configurations have equal fingerprints exactly when all ten key
parameters agree. -/
lemma fingerprint_params_eq_iff (e1 e2 : Experiment) :
    fingerprint e1.params = fingerprint e2.params ↔ keyParams e1 = keyParams e2 := by
  rw [fingerprint_params, fingerprint_params]
  constructor
  · intro h
    have hm := Finset.ext_iff.mp h
    have h1 := (hm ("classifier", PVal.s e1.classifier_name)).mp (by simp)
    have h2 := (hm ("images_url", PVal.s e1.images_url)).mp (by simp)
    have h3 := (hm ("num_train_obs", PVal.n e1.num_train_obs)).mp (by simp)
    have h4 := (hm ("num_calibration_obs", PVal.n e1.num_calibration_obs)).mp
      (by simp)
    have h5 := (hm ("interpreter", PVal.s e1.interpreter_desc)).mp (by simp)
    have h6 := (hm ("type2", PVal.s e1.type2_desc)).mp (by simp)
    have h7 := (hm ("type1", PVal.s e1.type1_desc)).mp (by simp)
    have h8 := (hm ("model_agnostic_picker",
      PVal.s e1.model_agnostic_picker_desc)).mp (by simp)
    have h9 := (hm ("max_perturbed_area", PVal.n e1.max_perturbed_area)).mp
      (by simp)
    have h10 := (hm ("min_overlap_for_concept_merge",
      PVal.n e1.max_concept_overlap)).mp (by simp)
    simp only [List.mem_toFinset, List.mem_cons, List.not_mem_nil, or_false,
      Prod.mk.injEq, PVal.s.injEq, PVal.n.injEq] at h1 h2 h3 h4 h5 h6 h7 h8 h9 h10
    simp at h1 h2 h3 h4 h5 h6 h7 h8 h9 h10
    simp only [keyParams, KeyParams.mk.injEq]
    exact ⟨h1, h2, h3, h4, h5, h6, h7, h8, h9, h10⟩
  · intro h
    simp only [keyParams, KeyParams.mk.injEq] at h
    obtain ⟨h1, h2, h3, h4, h5, h6, h7, h8, h9, h10⟩ := h
    rw [h1, h2, h3, h4, h5, h6, h7, h8, h9, h10]

/-- Computation rule for `dictLookup` on a nonempty dict. -/
lemma dictLookup_cons {κ ν : Type} [DecidableEq κ] (k0 : κ) (v0 : ν)
    (rest : List (κ × ν)) (k : κ) :
    dictLookup ((k0, v0) :: rest) k =
      if k0 = k then some v0 else dictLookup rest k :=
  rfl

/-- Registering an unknown fingerprint under the next free number preserves
the ledger invariant. -/
lemma tableInv_insert (table : List (Finset (String × PVal) × Nat)) (next : Nat)
    (fp : Finset (String × PVal))
    (hinj : ∀ k1 k2 n, dictLookup table k1 = some n →
      dictLookup table k2 = some n → k1 = k2)
    (hlt : ∀ k n, dictLookup table k = some n → n < next) :
    (∀ k1 k2 n, dictLookup ((fp, next) :: table) k1 = some n →
      dictLookup ((fp, next) :: table) k2 = some n → k1 = k2) ∧
    (∀ k n, dictLookup ((fp, next) :: table) k = some n → n < next + 1) := by
  constructor
  · intro k1 k2 n hk1 hk2
    rw [dictLookup_cons] at hk1 hk2
    by_cases he1 : fp = k1
    · by_cases he2 : fp = k2
      · rw [← he1, ← he2]
      · rw [if_pos he1] at hk1
        rw [if_neg he2] at hk2
        have hn := hlt k2 n hk2
        have hn2 : n = next := by
          have := Option.some.inj hk1
          omega
        omega
    · by_cases he2 : fp = k2
      · rw [if_neg he1] at hk1
        rw [if_pos he2] at hk2
        have hn := hlt k1 n hk1
        have hn2 : n = next := by
          have := Option.some.inj hk2
          omega
        omega
      · rw [if_neg he1] at hk1
        rw [if_neg he2] at hk2
        exact hinj k1 k2 n hk1 hk2
  · intro k n hk
    rw [dictLookup_cons] at hk
    by_cases he : fp = k
    · rw [if_pos he] at hk
      have := Option.some.inj hk
      omega
    · rw [if_neg he] at hk
      have := hlt k n hk
      omega

/-- Entries of the fingerprint table survive the numbering loop: the loop only
adds fingerprints it has not seen. -/
lemma assignNumbers_lookup_persists (fps : List (Finset (String × PVal))) :
    ∀ (st : LedgerState) (k : Finset (String × PVal)) (n : Nat),
      dictLookup st.exp_no_by_params k = some n →
      dictLookup (assignNumbers st fps).2.exp_no_by_params k = some n := by
  induction fps with
  | nil => exact fun st k n h => h
  | cons fp rest ih =>
    intro st k n h
    unfold assignNumbers
    cases hl : dictLookup st.exp_no_by_params fp with
    | some m => exact ih st k n h
    | none =>
      apply ih ⟨(fp, st.next_exp_no) :: st.exp_no_by_params, st.next_exp_no + 1⟩
      show dictLookup ((fp, st.next_exp_no) :: st.exp_no_by_params) k = some n
      rw [dictLookup_cons,
        if_neg (fun he => by rw [he] at hl; rw [hl] at h; exact Option.noConfusion h)]
      exact h

/-- The numbering loop preserves the ledger invariant. -/
lemma assignNumbers_inv (fps : List (Finset (String × PVal))) :
    ∀ st : LedgerState, LedgerInv st → LedgerInv (assignNumbers st fps).2 := by
  induction fps with
  | nil => exact fun st h => h
  | cons fp rest ih =>
    intro st hinv
    unfold assignNumbers
    cases hl : dictLookup st.exp_no_by_params fp with
    | some m => exact ih st hinv
    | none =>
      apply ih ⟨(fp, st.next_exp_no) :: st.exp_no_by_params, st.next_exp_no + 1⟩
      exact tableInv_insert st.exp_no_by_params st.next_exp_no fp
        hinv.1 hinv.2

/-- The numbering loop returns as many numbers as it is given fingerprints. -/
lemma assignNumbers_length (fps : List (Finset (String × PVal))) :
    ∀ st : LedgerState, (assignNumbers st fps).1.length = fps.length := by
  induction fps with
  | nil => exact fun st => rfl
  | cons fp rest ih =>
    intro st
    unfold assignNumbers
    cases dictLookup st.exp_no_by_params fp with
    | some m => simpa using ih st
    | none => simpa using ih _

/-- The number assigned to the `i`-th configuration is the entry its
fingerprint carries in the final table. -/
lemma assignNumbers_get (fps : List (Finset (String × PVal))) :
    ∀ (st : LedgerState) (i : Nat) (fp : Finset (String × PVal)),
      fps[i]? = some fp →
      (assignNumbers st fps).1[i]? =
        dictLookup (assignNumbers st fps).2.exp_no_by_params fp := by
  induction fps with
  | nil => intro st i fp h; simp at h
  | cons fp0 rest ih =>
    intro st i fp h
    unfold assignNumbers
    split
    · rename_i m hl
      cases i with
      | zero =>
        simp only [List.getElem?_cons_zero, Option.some.injEq] at h
        subst h
        dsimp only
        rw [List.getElem?_cons_zero]
        exact (assignNumbers_lookup_persists rest st fp0 m hl).symm
      | succ i2 =>
        simp only [List.getElem?_cons_succ] at h
        dsimp only
        rw [List.getElem?_cons_succ]
        exact ih st i2 fp h
    · rename_i hl
      cases i with
      | zero =>
        simp only [List.getElem?_cons_zero, Option.some.injEq] at h
        subst h
        dsimp only
        rw [List.getElem?_cons_zero]
        exact (assignNumbers_lookup_persists rest
          ⟨(fp0, st.next_exp_no) :: st.exp_no_by_params, st.next_exp_no + 1⟩
          fp0 st.next_exp_no (by rw [dictLookup_cons, if_pos rfl])).symm
      | succ i2 =>
        simp only [List.getElem?_cons_succ] at h
        dsimp only
        rw [List.getElem?_cons_succ]
        exact ih _ i2 fp h

/-! ## Claim theorems -/

/-- C1: the claim states that resuming at repetition `n` skips exactly what the
first `n - 1` repetitions (plus test-set preparation) consumed, so every
repetition sees the same training chunk as in an uninterrupted run.  The code
violates this: `skip_count` omits the `num_calibration_obs` images each
repetition also consumes.  With 1 test image, 1 calibration image and 2
training images per repetition, an uninterrupted run gives repetition 2 the
stream positions `[5, 6]`, while resuming at 2 gives it `[4, 5]`. -/
theorem resume_skip_divergence :
    runTrainChunks c1Experiment 1 = [(1, [2, 3]), (2, [5, 6])] ∧
    runTrainChunks c1Experiment 2 = [(2, [4, 5])] ∧
    ([4, 5] : List Nat) ≠ [5, 6] := by
  refine ⟨by decide, by decide, by decide⟩

/-- C2, counterexample: with two predicted classes occurring once each and a
minimum of 5 folds, the inclusion mask is empty, yet `run_cv` returns a plan
(no error): it silently substitutes the all-inclusive mask and a plain
`KFold(5)`. -/
theorem run_cv_empty_mask_counterexample :
    (filter_for_split [0, 1] 5 (some [0, 1])).any id = false ∧
    run_cv_plan [0, 1] (some [0, 1]) 5 5 =
      .ok ⟨[true, true], .kfold 5⟩ := ⟨by decide, by rfl⟩

/-- C2, amended: when the fold-planning stage produces an empty inclusion mask,
`run_cv` does not raise; it silently replaces the mask by an all-inclusive one
and fits with an unstratified `KFold(min_k_folds)` on the full population. -/
theorem run_cv_empty_mask_fallback (pred : List Int) (allc : Option (List Int))
    (mn mx : Nat) (hmm : mn ≤ mx)
    (h : (filter_for_split pred mn allc).any id = false) :
    run_cv_plan pred allc mn mx =
      .ok ⟨List.replicate pred.length true, .kfold mn⟩ :=
  run_cv_plan_fallback pred allc mn mx hmm h

/-- Witness for C2: the amended theorem applied at a concrete input. -/
theorem run_cv_empty_mask_fallback_witness :
    run_cv_plan [0, 1] (some [0, 1]) 5 7 =
      .ok ⟨List.replicate 2 true, .kfold 5⟩ :=
  run_cv_empty_mask_fallback [0, 1] (some [0, 1]) 5 7 (by decide) (by decide)

/-- C5: `fit_transform` returns exactly the matrix `transform` returns after
`fit` on the same corpus, and leaves the selector in the same fitted state;
the embedded `fit_transform` reuses the counts of the fitting pass. -/
theorem fit_transform_consistency (m : Type2Model) (quantile : Bool)
    (threshold : ℚ) (X : List String) :
    (fit_transform m quantile threshold X).2 =
      transform m (fit m quantile threshold X) X ∧
    (fit_transform m quantile threshold X).1 = fit m quantile threshold X :=
  ⟨rfl, rfl⟩

/-- C10: indexing an `ImageList` with a slice raises `ValueError`; integer
indexing yields a single `(id, image)` pair (or `IndexError` out of range) and
iterable indexing — index lists and boolean masks — yields a sub-corpus (or
`IndexError`). -/
theorem imagelist_getitem_dispatch (xs : ImageList) (a b : Option Int)
    (i : Int) (il : List Int) (bm : List Bool) :
    xs.getitem (.slice a b) =
      .error (.valueError "Cannot use slice for indexing.") ∧
    ((∃ p, xs.getitem (.int i) = .ok (.inl p)) ∨
      xs.getitem (.int i) = .error .indexError) ∧
    ((∃ ys, xs.getitem (.indexSeq il) = .ok (.inr ys)) ∨
      xs.getitem (.indexSeq il) = .error .indexError) ∧
    ((∃ ys, xs.getitem (.boolMask bm) = .ok (.inr ys)) ∨
      xs.getitem (.boolMask bm) = .error .indexError) := by
  refine ⟨rfl, ?_, ?_, ?_⟩
  · rcases npGetInt_shape xs.image_ids i with ⟨p, hp⟩ | hp
    · rcases npGetInt_shape xs.images i with ⟨q, hq⟩ | hq
      · exact .inl ⟨(p, q), by simp only [ImageList.getitem]; rw [hp, hq]; rfl⟩
      · exact .inr (by simp only [ImageList.getitem]; rw [hp, hq]; rfl)
    · exact .inr (by simp only [ImageList.getitem]; rw [hp]; rfl)
  · rcases npFancy_shape xs.image_ids il with ⟨p, hp⟩ | hp
    · rcases npFancy_shape xs.images il with ⟨q, hq⟩ | hq
      · exact .inl ⟨⟨p, q⟩, by simp only [ImageList.getitem]; rw [hp, hq]; rfl⟩
      · exact .inr (by simp only [ImageList.getitem]; rw [hp, hq]; rfl)
    · exact .inr (by simp only [ImageList.getitem]; rw [hp]; rfl)
  · rcases npBoolSel_shape xs.image_ids bm with ⟨p, hp⟩ | hp
    · rcases npBoolSel_shape xs.images bm with ⟨q, hq⟩ | hq
      · exact .inl ⟨⟨p, q⟩, by simp only [ImageList.getitem]; rw [hp, hq]; rfl⟩
      · exact .inr (by simp only [ImageList.getitem]; rw [hp, hq]; rfl)
    · exact .inr (by simp only [ImageList.getitem]; rw [hp]; rfl)

/-- C3, counterexample: the claim promises that each seen class's probability
lands in the column of its class id.  With the class-name list `["b", "a"]`
(not lexicographically sorted) and a surrogate that has seen only class 0,
`np.argsort(class_names)` is `[1, 0]` and the single probability 1 of seen
class 0 is written to column 1, not column 0; the claim instead demands the
spec-side row `[[1, 0]]`. -/
theorem spread_probs_misplacement_counterexample :
    spread_probs_to_all_classes (α := ℚ) ["b", "a"] [0] [[1]] = [[0, 1]] ∧
    ([[1]] : List (List ℚ)).map (specSpreadRow 2 [0]) = [[1, 0]] ∧
    ([[0, 1]] : List (List ℚ)) ≠ [[1, 0]] := by
  refine ⟨?_, by rfl, by norm_num⟩
  simp only [spread_probs_to_all_classes, argsortStr_ba]
  rfl

/-- C3, amended: provided the experiment's class names are strictly increasing
(so that `np.argsort(class_names)` is the identity permutation over the class
ids), the re-expanded matrix has, in each row, probability 0 at every class the
surrogate has not seen and each seen class's probability in the column of that
class's id; and whenever the re-expanded matrix has exactly two columns,
`_get_predictions` collapses it to the positive-class column. -/
theorem spread_probs_sorted_names {α : Type} [Zero α] (class_names : List String)
    (classes_ : List Int) (probs : List (List α))
    (hsorted : class_names.Pairwise (· < ·))
    (hcl : ∀ c ∈ classes_, 0 ≤ c ∧ c < (class_names.length : Int))
    (hnd : classes_.Nodup)
    (hrow : ∀ row ∈ probs, row.length = classes_.length) :
    spread_probs_to_all_classes class_names classes_ probs =
      probs.map (specSpreadRow class_names.length classes_) ∧
    (class_names.length = 2 →
      get_predictions class_names classes_ probs =
        .inr ((spread_probs_to_all_classes class_names classes_ probs).map
          (fun row => row.getD 1 0))) := by
  constructor
  · unfold spread_probs_to_all_classes
    apply List.map_congr_left
    intro row hr
    exact spread_row_eq class_names classes_ row hsorted hcl hnd (hrow row hr)
  · intro h2
    unfold get_predictions
    rw [if_pos h2]

/-- Witness for C3: four strictly increasing class names, surrogate classes
`{0, 2}`, one probability row. -/
theorem spread_probs_sorted_names_witness :
    spread_probs_to_all_classes (α := ℚ) ["a", "b", "c", "d"] [0, 2] [[1, 0]] =
      ([[1, 0]] : List (List ℚ)).map (specSpreadRow 4 [0, 2]) ∧
    ((["a", "b", "c", "d"] : List String).length = 2 →
      get_predictions ["a", "b", "c", "d"] [0, 2] ([[1, 0]] : List (List ℚ)) =
        .inr ((spread_probs_to_all_classes ["a", "b", "c", "d"] [0, 2]
          ([[1, 0]] : List (List ℚ))).map (fun row => row.getD 1 0))) :=
  spread_probs_sorted_names ["a", "b", "c", "d"] [0, 2] [[1, 0]]
    (by simp; decide) (by decide) (by decide) (by decide)

/-- C6: when every predicted class occurs fewer than `min_k_folds` times (over
a duplicate-free class universe), the planner returns the all-inclusive mask
and a plain, unstratified `KFold(min_k_folds)`. -/
theorem fold_planner_all_rare_fallback (pred ac : List Int) (mn mx : Nat)
    (hmm : mn ≤ mx) (hnd : ac.Nodup)
    (hall : ∀ v ∈ pred, pred.count v < mn) :
    run_cv_plan pred (some ac) mn mx =
      .ok ⟨List.replicate pred.length true, .kfold mn⟩ := by
  apply run_cv_plan_fallback pred (some ac) mn mx hmm
  rw [List.any_eq_false]
  intro x hx
  unfold filter_for_split at hx
  simp only [List.mem_map] at hx
  obtain ⟨p, hp, rfl⟩ := hx
  simp only [id_eq, contains_eq_decide_mem, decide_eq_true_eq]
  intro hmem
  rw [mem_enough_samples] at hmem
  obtain ⟨_, h⟩ := hmem
  simp only [Option.getD_some] at h
  rw [List.count_append] at h
  have hacp : ac.count p ≤ 1 := List.nodup_iff_count_le_one.mp hnd p
  have hpp : pred.count p < mn := hall p hp
  push_cast at h
  omega

/-- Witness for C6: classes 0 and 1 occur fewer than 5 times each. -/
theorem fold_planner_all_rare_fallback_witness :
    run_cv_plan [0, 0, 1] (some [0, 1, 2]) 5 6 =
      .ok ⟨List.replicate 3 true, .kfold 5⟩ :=
  fold_planner_all_rare_fallback [0, 0, 1] [0, 1, 2] 5 6 (by decide) (by decide)
    (by decide)

/-- C7: when at least one predicted class reaches `min_k_folds`, the planner
picks the stratified strategy with fold count `min(max_k_folds, c)` where `c`
is the occurrence count of the least-represented retained class — hence the
fold count never exceeds `max_k_folds` nor `c` — and the inclusion mask marks
exactly the observations whose predicted class is retained. -/
theorem fold_planner_retained (pred ac : List Int) (mn mx : Nat)
    (hmm : mn ≤ mx) (hnd : ac.Nodup) (hsub : ∀ v ∈ pred, v ∈ ac)
    (hex : ∃ v ∈ pred, mn ≤ pred.count v) :
    ∃ c : Nat,
      run_cv_plan pred (some ac) mn mx =
        .ok ⟨pred.map (fun p => decide (mn ≤ pred.count p)),
             .stratifiedKFold (min mx c)⟩ ∧
      (∃ v ∈ pred, mn ≤ pred.count v ∧ pred.count v = c) ∧
      (∀ v ∈ pred, mn ≤ pred.count v → c ≤ pred.count v) ∧
      min mx c ≤ mx ∧ min mx c ≤ c := by
  obtain ⟨w, hw, hcw⟩ := hex
  have hmask := filter_for_split_char pred ac mn hnd hsub
  set f : Int → Bool := fun p => decide (mn ≤ pred.count p) with hf
  set filtered := pred.filter f with hfil
  have hwf : w ∈ filtered := List.mem_filter.mpr ⟨hw, by simp [hf, hcw]⟩
  have hcount : ∀ v ∈ filtered,
      filtered.count v = pred.count v ∧ mn ≤ pred.count v := by
    intro v hv
    have hv2 := List.mem_filter.mp hv
    have hfv : mn ≤ pred.count v := by simpa [hf] using hv2.2
    exact ⟨List.count_filter hv2.2, hfv⟩
  obtain ⟨c, hc⟩ :
      ∃ c, (filtered.dedup.map (fun v => filtered.count v)).min? = some c := by
    cases h : (filtered.dedup.map (fun v => filtered.count v)).min? with
    | none =>
      rw [List.min?_eq_none_iff, List.map_eq_nil_iff] at h
      exact absurd (List.mem_dedup.mpr hwf) (h ▸ List.not_mem_nil w)
    | some c => exact ⟨c, rfl⟩
  obtain ⟨hcmem, hcle⟩ := List.min?_eq_some_iff'.mp hc
  obtain ⟨v0, hv0d, hv0c⟩ := List.mem_map.mp hcmem
  obtain ⟨hv0count, hv0mn⟩ := hcount v0 (List.mem_dedup.mp hv0d)
  have hany : (filter_for_split pred mn (some ac)).any id = true := by
    rw [hmask, List.any_eq_true]
    exact ⟨f w, List.mem_map_of_mem f hw, by simp [hf, hcw]⟩
  have hplan : run_cv_plan pred (some ac) mn mx =
      .ok ⟨filter_for_split pred mn (some ac),
        .stratifiedKFold (determine_k_folds
          (applyMask pred (filter_for_split pred mn (some ac))) mx)⟩ := by
    unfold run_cv_plan
    simp only [if_pos hmm, hany, if_true]
  refine ⟨c, ?_, ?_, ?_, Nat.min_le_left _ _, Nat.min_le_right _ _⟩
  · rw [hplan, hmask, applyMask_map]
    have hleast : leastClassCount (pred.filter f) = c := by
      unfold leastClassCount
      rw [← hfil, hc]
      rfl
    unfold determine_k_folds
    rw [hleast]
  · exact ⟨v0, (List.mem_filter.mp (List.mem_dedup.mp hv0d)).1, hv0mn,
      by rw [← hv0count, hv0c]⟩
  · intro v hv hmn
    have hvf : v ∈ filtered := List.mem_filter.mpr ⟨hv, by simp [hf, hmn]⟩
    have := hcle (filtered.count v)
      (List.mem_map_of_mem _ (List.mem_dedup.mpr hvf))
    rw [(hcount v hvf).1] at this
    exact this

/-- Witness for C7: class 0 occurs 5 times, classes 1 and 2 are dropped; the
least retained count is 5 and the fold count is `min 5 5`. -/
theorem fold_planner_retained_witness :
    ∃ c : Nat,
      run_cv_plan [0, 0, 0, 0, 0, 1] (some [0, 1, 2]) 5 5 =
        .ok ⟨[0, 0, 0, 0, 0, 1].map
              (fun p => decide (5 ≤ ([0, 0, 0, 0, 0, 1] : List Int).count p)),
             .stratifiedKFold (min 5 c)⟩ ∧
      (∃ v ∈ ([0, 0, 0, 0, 0, 1] : List Int),
        5 ≤ ([0, 0, 0, 0, 0, 1] : List Int).count v ∧
        ([0, 0, 0, 0, 0, 1] : List Int).count v = c) ∧
      (∀ v ∈ ([0, 0, 0, 0, 0, 1] : List Int),
        5 ≤ ([0, 0, 0, 0, 0, 1] : List Int).count v →
        c ≤ ([0, 0, 0, 0, 0, 1] : List Int).count v) ∧
      min 5 c ≤ 5 ∧ min 5 c ≤ c :=
  fold_planner_retained [0, 0, 0, 0, 0, 1] [0, 1, 2] 5 5 (by decide) (by decide)
    (by decide) (by decide)

/-- C4, counterexample: in fixed mode with threshold 0, a concept with total
occurrence count 0 (concept 0 of `c4model`) is NOT included in the picked set —
the strict comparison `i > threshold` excludes it, contradicting the claim that
threshold 0 includes it. -/
theorem zero_count_threshold_zero_counterexample :
    (sumCounts 2 (get_counts c4model ["i0"]).1).getD 0 0 = 0 ∧
    (fit c4model false 0 ["i0"]).picked_concepts = [1] ∧
    0 ∉ (fit c4model false 0 ["i0"]).picked_concepts := by
  have h2 : (fit c4model false 0 ["i0"]).picked_concepts = [1] := by
    norm_num [fit, get_counts, get_single_counts, concept_ids_to_counts,
      evaluate_counters, sumCounts, get_influential_concepts, List.range_succ,
      List.filter, List.dedup, c4model]
  exact ⟨by decide, h2, by rw [h2]; decide⟩

/-- C4, amended: after fitting in fixed mode, a concept with total occurrence
count 0 has influence ratio exactly 0 and is excluded from the picked set
whenever the threshold is nonnegative — including threshold 0, because the
comparison is strict — and is included exactly when the threshold is
negative. -/
theorem zero_count_concept_excluded (m : Type2Model) (threshold : ℚ)
    (X : List String) (cid : Nat) (hcid : cid < m.numConcepts)
    (hzero : (sumCounts m.numConcepts (get_counts m X).1).getD cid 0 = 0) :
    (fit m false threshold X).concept_influences.getD cid 0 = 0 ∧
    (0 ≤ threshold → cid ∉ (fit m false threshold X).picked_concepts) ∧
    (threshold < 0 → cid ∈ (fit m false threshold X).picked_concepts) := by
  have hci : (fit m false threshold X).concept_influences =
      evaluate_counters m.numConcepts (get_counts m X).1 (get_counts m X).2 := rfl
  have hval : (fit m false threshold X).concept_influences.getD cid 0 = 0 := by
    rw [hci, evaluate_counters_getD _ _ _ _ hcid, if_pos hzero]
  have hpick : (fit m false threshold X).picked_concepts =
      get_influential_concepts false threshold
        (fit m false threshold X).concept_influences := rfl
  refine ⟨hval, ?_, ?_⟩
  · intro hth hmem
    rw [hpick, mem_get_influential_fixed, hval] at hmem
    exact absurd hmem.2 (not_lt.mpr hth)
  · intro hth
    rw [hpick, mem_get_influential_fixed, hval]
    exact ⟨by rw [hci, evaluate_counters_length]; exact hcid, hth⟩

/-- Witness for C4: the amended theorem applied to `c4model` at threshold 0. -/
theorem zero_count_concept_excluded_witness :
    (fit c4model false 0 ["i0"]).concept_influences.getD 0 0 = 0 ∧
    0 ∉ (fit c4model false 0 ["i0"]).picked_concepts := by
  obtain ⟨h1, h2, _⟩ :=
    zero_count_concept_excluded c4model 0 ["i0"] 0 (by decide) (by decide)
  exact ⟨h1, h2 le_rfl⟩

/-- C8: in quantile mode, when all per-concept influence ratios after fitting
are identical, every concept id is picked, whatever the configured quantile
threshold. -/
theorem quantile_identical_ratios_picks_all (m : Type2Model) (threshold : ℚ)
    (X : List String)
    (hne : (fit m true threshold X).concept_influences ≠ [])
    (hall : ∀ x ∈ (fit m true threshold X).concept_influences,
      x = (fit m true threshold X).concept_influences.getD 0 0) :
    (fit m true threshold X).picked_concepts = List.range m.numConcepts := by
  have hd := dedup_length_one_of_all_eq hne hall
  have hpick : (fit m true threshold X).picked_concepts =
      get_influential_concepts true threshold
        (fit m true threshold X).concept_influences := rfl
  have hlen : (fit m true threshold X).concept_influences.length = m.numConcepts :=
    evaluate_counters_length _ _ _
  rw [hpick]
  unfold get_influential_concepts
  rw [if_pos ⟨rfl, hd⟩, hlen]

/-- Witness for C8: `c8model` gives both concepts influence ratio 1; with the
quantile threshold 3/4 both concepts are picked. -/
theorem quantile_identical_ratios_picks_all_witness :
    (fit c8model true (3 / 4) ["i0"]).picked_concepts = List.range 2 := by
  have h : (fit c8model true (3 / 4) ["i0"]).concept_influences = [1, 1] := by
    norm_num [fit, get_counts, get_single_counts, concept_ids_to_counts,
      evaluate_counters, sumCounts, List.range_succ, c8model, List.filter]
  exact quantile_identical_ratios_picks_all c8model (3 / 4) ["i0"]
    (by rw [h]; exact List.cons_ne_nil 1 [1])
    (by rw [h]; intro x hx; rcases List.mem_cons.mp hx with h1 | h1
        · simpa using h1
        · simpa using List.mem_singleton.mp h1)

/-- Numbers assigned by the loop agree exactly on equal fingerprints. -/
lemma assignNumbers_eq_iff (init : LedgerState) (hinv : LedgerInv init)
    (fps : List (Finset (String × PVal))) (i j : Nat)
    (fpi fpj : Finset (String × PVal))
    (hfi : fps[i]? = some fpi) (hfj : fps[j]? = some fpj) :
    (assignNumbers init fps).1[i]? = (assignNumbers init fps).1[j]? ↔
      fpi = fpj := by
  have hni := assignNumbers_get fps init i fpi hfi
  have hnj := assignNumbers_get fps init j fpj hfj
  have hfinal := assignNumbers_inv fps init hinv
  constructor
  · intro hnum
    have hilt : i < fps.length := by
      by_contra hcon
      rw [List.getElem?_eq_none (by omega)] at hfi
      exact Option.noConfusion hfi
    have hsi : ∃ v, (assignNumbers init fps).1[i]? = some v := by
      rw [List.getElem?_eq_getElem
        (by rw [assignNumbers_length fps init]; exact hilt)]
      exact ⟨_, rfl⟩
    obtain ⟨v, hv⟩ := hsi
    apply hfinal.1 _ _ v
    · rw [← hni, hv]
    · rw [← hnj, ← hnum, hv]
  · intro hfp
    rw [hni, hnj, hfp]

/-- C9: over any run whose initial table satisfies the ledger invariant (the
empty table of a fresh run, or a resumed table whose loading loop enforced one
number per fingerprint), two processed configurations receive the same
experiment number exactly when their fingerprints are equal; and fingerprints
are equal exactly when all key parameters agree.  Hence configurations
differing only outside the key-parameter set share their experiment number,
configurations differing in a key parameter get different numbers, and exactly
one experiment number exists per distinct fingerprint. -/
theorem experiment_numbering (init : LedgerState) (es : List Experiment)
    (i j : Nat) (hinv : LedgerInv init)
    (hi : i < es.length) (hj : j < es.length) :
    (fingerprint (es.get ⟨i, hi⟩).params = fingerprint (es.get ⟨j, hj⟩).params ↔
      keyParams (es.get ⟨i, hi⟩) = keyParams (es.get ⟨j, hj⟩)) ∧
    ((assignNumbers init (es.map (fun e => fingerprint e.params))).1[i]? =
        (assignNumbers init (es.map (fun e => fingerprint e.params))).1[j]? ↔
      fingerprint (es.get ⟨i, hi⟩).params =
        fingerprint (es.get ⟨j, hj⟩).params) := by
  refine ⟨fingerprint_params_eq_iff _ _, ?_⟩
  have hfi : (es.map (fun e => fingerprint e.params))[i]? =
      some (fingerprint (es.get ⟨i, hi⟩).params) := by
    rw [List.getElem?_map, List.getElem?_eq_getElem hi]
    rfl
  have hfj : (es.map (fun e => fingerprint e.params))[j]? =
      some (fingerprint (es.get ⟨j, hj⟩).params) := by
    rw [List.getElem?_map, List.getElem?_eq_getElem hj]
    rfl
  have h0 := assignNumbers_eq_iff init hinv (es.map (fun e => fingerprint e.params)) i j
  have h1 := h0 (fingerprint (es.get ⟨i, hi⟩).params)
  have h2 := h1 (fingerprint (es.get ⟨j, hj⟩).params)
  have h3 := h2 hfi
  exact h3 hfj

/-- Witness for C9: `c9exp1` and `c9exp2` differ only in the non-key
`num_test_obs` field; starting from the empty ledger they share fingerprint,
key parameters and experiment number. -/
theorem experiment_numbering_witness :
    (fingerprint ([c9exp1, c9exp2].get ⟨0, by decide⟩).params =
        fingerprint ([c9exp1, c9exp2].get ⟨1, by decide⟩).params ↔
      keyParams ([c9exp1, c9exp2].get ⟨0, by decide⟩) =
        keyParams ([c9exp1, c9exp2].get ⟨1, by decide⟩)) ∧
    ((assignNumbers ⟨[], 1⟩
        ([c9exp1, c9exp2].map (fun e => fingerprint e.params))).1[0]? =
      (assignNumbers ⟨[], 1⟩
        ([c9exp1, c9exp2].map (fun e => fingerprint e.params))).1[1]? ↔
      fingerprint ([c9exp1, c9exp2].get ⟨0, by decide⟩).params =
        fingerprint ([c9exp1, c9exp2].get ⟨1, by decide⟩).params) :=
  experiment_numbering ⟨[], 1⟩ [c9exp1, c9exp2] 0 1
    ⟨fun _ _ _ hk1 _ => Option.noConfusion hk1,
     fun _ _ hk => Option.noConfusion hk⟩
    (by decide) (by decide)

end Ida
